import Mathlib

/-!
Verification of the segment reconstruction and cross-document alignment engine.

The definitions below are a shallow embedding of the Python source:

* `src/processing/json_parser.py`, step 3 of `process_document_json`
  (the paragraph-stitching pass);
* `src/alignment/semantic_aligner.py` (`_calculate_proximity_matrix`,
  `_calculate_type_matrix`, and the matching / assembly part of `align_content`);
* `src/alignment/toc_aligner.py` (`align_tocs`, the optimal-assignment strategy).

Real numbers computed by the code are embedded as rationals.  The semantic score
matrix comes from an external embedding service, so it enters every definition as
an arbitrary function `ℕ → ℕ → ℚ`.
-/

namespace DocAlign

/-- A content unit as produced by the JSON parser: a dict with keys
`text`, `type` and `page`. -/
structure ContentItem where
  text : String
  type : String
  page : Nat
  deriving DecidableEq, Repr

/-- Default item used only to give `List.getD` a value at in-bounds indices. -/
def defaultCI : ContentItem := ⟨"", "paragraph", 0⟩

/-- `config.STRUCTURAL_ROLES` from `config.py`. -/
def STRUCTURAL_ROLES : List String := ["title", "sectionHeading", "subheading"]

/-- `config.W_SEMANTIC`. -/
def W_SEMANTIC : ℚ := 7 / 10

/-- `config.W_TYPE`. -/
def W_TYPE : ℚ := 1 / 5

/-- `config.W_PROXIMITY`. -/
def W_PROXIMITY : ℚ := 1 / 10

/-- `config.TYPE_MATCH_BONUS`. -/
def TYPE_MATCH_BONUS : ℚ := 1

/-- `config.TYPE_MISMATCH_PENALTY`. -/
def TYPE_MISMATCH_PENALTY : ℚ := -1

/-- `config.SIMILARITY_THRESHOLD`. -/
def SIMILARITY_THRESHOLD : ℚ := 7 / 10

/-- The Python test `stitched_text.endswith(('.', '!', '?', ':', '•'))`.
All five markers are single characters, so the test is exactly a check on the
last character of the string. -/
def endsWithTerminal (s : String) : Bool :=
  match s.data.getLast? with
  | some c => c == '.' || c == '!' || c == '?' || c == ':' || c == '•'
  | none => false

/-- The Python test
`segment['type'] in config.STRUCTURAL_ROLES or segment['type'] == 'table'`,
with the structural-role set as a parameter. -/
def isStandalone (roles : List String) (ty : String) : Bool :=
  roles.contains ty || ty == "table"

/-- Step 3 of `process_document_json`: the stitching loop, carrying the Python
state `(stitched_text, current_type, current_page)` explicitly.  The buffer is
"empty" exactly when the string is `""`, matching Python truthiness. -/
def stitchAux (roles : List String) : List ContentItem → String → String → Nat → List ContentItem
  | [], buf, ty, pg => if buf = "" then [] else [⟨buf, ty, pg⟩]
  | seg :: rest, buf, ty, pg =>
    if isStandalone roles seg.type then
      (if buf = "" then [seg] else [⟨buf, ty, pg⟩, seg]) ++ stitchAux roles rest "" ty pg
    else if buf = "" then
      stitchAux roles rest seg.text seg.type seg.page
    else if endsWithTerminal buf then
      ⟨buf, ty, pg⟩ :: stitchAux roles rest seg.text seg.type seg.page
    else
      stitchAux roles rest (buf ++ " " ++ seg.text) ty pg

/-- The whole stitching pass: initial state `stitched_text = ""`,
`current_type = "paragraph"`, `current_page = 0`. -/
def stitch (roles : List String) (xs : List ContentItem) : List ContentItem :=
  stitchAux roles xs "" "paragraph" 0

/-- A non-standalone output unit must have non-empty text. -/
def flowOK (roles : List String) (a : ContentItem) : Bool :=
  isStandalone roles a.type || a.text ≠ ""

/-- Two adjacent output units are compatible: re-running the stitcher will not
merge them (one of them is standalone, or the first ends with a terminal marker). -/
def pairOK (roles : List String) (a b : ContentItem) : Bool :=
  isStandalone roles a.type || isStandalone roles b.type || endsWithTerminal a.text

/-- `pairOK` between `a` and the head of a list (trivially true for `[]`). -/
def headPair (roles : List String) (a : ContentItem) : List ContentItem → Bool
  | [] => true
  | b :: _ => pairOK roles a b

/-- The shape invariant of stitched output: every unit flow-valid and every
adjacent pair compatible. -/
def chainOK (roles : List String) : List ContentItem → Bool
  | [] => true
  | a :: rest => flowOK roles a && headPair roles a rest && chainOK roles rest

theorem stitchAux_nil (roles : List String) (buf ty : String) (pg : Nat) :
    stitchAux roles [] buf ty pg = if buf = "" then [] else [⟨buf, ty, pg⟩] := rfl

theorem stitchAux_cons (roles : List String) (seg : ContentItem) (rest : List ContentItem)
    (buf ty : String) (pg : Nat) :
    stitchAux roles (seg :: rest) buf ty pg =
      if isStandalone roles seg.type then
        (if buf = "" then [seg] else [⟨buf, ty, pg⟩, seg]) ++ stitchAux roles rest "" ty pg
      else if buf = "" then
        stitchAux roles rest seg.text seg.type seg.page
      else if endsWithTerminal buf then
        ⟨buf, ty, pg⟩ :: stitchAux roles rest seg.text seg.type seg.page
      else
        stitchAux roles rest (buf ++ " " ++ seg.text) ty pg := rfl

theorem append_ne_empty (buf x : String) : buf ++ " " ++ x ≠ "" := by
  intro h
  have hlen := congrArg String.length h
  simp [String.length_append] at hlen
  exact absurd hlen.1.2 (by decide)

theorem chainOK_cons (roles : List String) (a : ContentItem) (rest : List ContentItem) :
    chainOK roles (a :: rest) =
      (flowOK roles a && headPair roles a rest && chainOK roles rest) := rfl

theorem headPair_nil (roles : List String) (a : ContentItem) :
    headPair roles a [] = true := rfl

theorem headPair_cons (roles : List String) (a b : ContentItem) (l : List ContentItem) :
    headPair roles a (b :: l) = pairOK roles a b := rfl

/-- The output of the stitching loop always satisfies the shape invariant,
whatever the pending buffer state. -/
theorem chainOK_stitchAux (roles : List String) :
    ∀ (xs : List ContentItem) (buf ty : String) (pg : Nat),
      chainOK roles (stitchAux roles xs buf ty pg) = true := by
  intro xs
  induction xs with
  | nil =>
    intro buf ty pg
    rw [stitchAux_nil]
    by_cases h : buf = ""
    · simp [h, chainOK]
    · simp [h, chainOK, headPair_nil, flowOK]
  | cons seg rest ih =>
    intro buf ty pg
    rw [stitchAux_cons]
    cases hstand : isStandalone roles seg.type with
    | true =>
      rw [if_pos rfl]
      have hout := ih "" ty pg
      have hhp : headPair roles seg (stitchAux roles rest "" ty pg) = true := by
        cases hrec : stitchAux roles rest "" ty pg with
        | nil => exact headPair_nil roles seg
        | cons b l => simp [headPair_cons, pairOK, hstand]
      by_cases h : buf = ""
      · rw [if_pos h, List.singleton_append, chainOK_cons]
        simp [flowOK, hstand, hhp, hout]
      · rw [if_neg h, List.cons_append, List.singleton_append, chainOK_cons, chainOK_cons]
        simp [flowOK, hstand, hhp, hout, headPair_cons, pairOK, h]
    | false =>
      rw [if_neg Bool.false_ne_true]
      by_cases h : buf = ""
      · rw [if_pos h]
        exact ih seg.text seg.type seg.page
      · rw [if_neg h]
        cases ht : endsWithTerminal buf with
        | true =>
          rw [if_pos rfl]
          have hout := ih seg.text seg.type seg.page
          have hhp : headPair roles (⟨buf, ty, pg⟩ : ContentItem)
              (stitchAux roles rest seg.text seg.type seg.page) = true := by
            cases hrec : stitchAux roles rest seg.text seg.type seg.page with
            | nil => exact headPair_nil roles _
            | cons b l => simp [headPair_cons, pairOK, ht]
          rw [chainOK_cons]
          simp [flowOK, hhp, hout, h]
        | false =>
          rw [if_neg Bool.false_ne_true]
          exact ih (buf ++ " " ++ seg.text) ty pg

/-- Joint fixed-point lemma for the stitcher: on a list satisfying the shape
invariant the pass with an empty buffer is the identity, and with a buffer
holding exactly one compatible flowing unit it re-emits that unit unchanged. -/
theorem stitchAux_fixed (roles : List String) :
    ∀ (n : Nat) (xs : List ContentItem), xs.length ≤ n →
      (chainOK roles xs = true → ∀ (ty : String) (pg : Nat),
        stitchAux roles xs "" ty pg = xs)
      ∧ (∀ a : ContentItem, isStandalone roles a.type = false → a.text ≠ "" →
          headPair roles a xs = true → chainOK roles xs = true →
          stitchAux roles xs a.text a.type a.page = a :: xs) := by
  intro n
  induction n with
  | zero =>
    intro xs hlen
    have hxs : xs = [] := List.eq_nil_of_length_eq_zero (Nat.le_zero.mp hlen)
    subst hxs
    refine ⟨fun _ ty pg => by rw [stitchAux_nil, if_pos rfl], ?_⟩
    intro a _ hatext _ _
    rw [stitchAux_nil, if_neg hatext]
  | succ n ih =>
    intro xs hlen
    cases xs with
    | nil =>
      refine ⟨fun _ ty pg => by rw [stitchAux_nil, if_pos rfl], ?_⟩
      intro a _ hatext _ _
      rw [stitchAux_nil, if_neg hatext]
    | cons s rest =>
      have hrest_len : rest.length ≤ n := by
        simpa [List.length_cons, Nat.succ_le_succ_iff] using hlen
      constructor
      · intro hOK ty pg
        rw [chainOK_cons] at hOK
        simp only [Bool.and_eq_true] at hOK
        obtain ⟨⟨hflow, hhp⟩, hOKrest⟩ := hOK
        rw [stitchAux_cons]
        cases hstand : isStandalone roles s.type with
        | true =>
          rw [if_pos rfl, if_pos rfl, List.singleton_append,
            (ih rest hrest_len).1 hOKrest ty pg]
        | false =>
          rw [if_neg Bool.false_ne_true, if_pos rfl]
          have hstext : s.text ≠ "" := by
            simp [flowOK, hstand] at hflow
            exact hflow
          exact (ih rest hrest_len).2 s hstand hstext hhp hOKrest
      · intro a hastand hatext hhp hOK
        rw [chainOK_cons] at hOK
        simp only [Bool.and_eq_true] at hOK
        obtain ⟨⟨hflow, hhp2⟩, hOKrest⟩ := hOK
        rw [headPair_cons] at hhp
        rw [stitchAux_cons]
        cases hstand : isStandalone roles s.type with
        | true =>
          rw [if_pos rfl, if_neg hatext, List.cons_append, List.singleton_append,
            (ih rest hrest_len).1 hOKrest a.type a.page]
        | false =>
          have hterm : endsWithTerminal a.text = true := by
            simp [pairOK, hastand, hstand] at hhp
            exact hhp
          rw [if_neg Bool.false_ne_true, if_neg hatext, if_pos hterm]
          have hstext : s.text ≠ "" := by
            simp [flowOK, hstand] at hflow
            exact hflow
          rw [(ih rest hrest_len).2 s hstand hstext hhp2 hOKrest]

/-- C5: the stitching pass is idempotent.  Reconstructing the output of the
reconstruction (each unit treated as one segment with its own type, page and
text) returns it unchanged, for every structural-role set and every input. -/
theorem stitch_idempotent (roles : List String) (xs : List ContentItem) :
    stitch roles (stitch roles xs) = stitch roles xs := by
  have hOK := chainOK_stitchAux roles xs "" "paragraph" 0
  exact (stitchAux_fixed roles (stitch roles xs).length (stitch roles xs) le_rfl).1 hOK
    "paragraph" 0

/-- Whenever the buffer is non-empty, the next unit emitted by the stitching
loop carries the buffer's stored type and page, whatever segments follow. -/
theorem stitchAux_head (roles : List String) :
    ∀ (xs : List ContentItem) (buf ty : String) (pg : Nat), buf ≠ "" →
      ∃ t, (stitchAux roles xs buf ty pg).head? = some ⟨t, ty, pg⟩ := by
  intro xs
  induction xs with
  | nil =>
    intro buf ty pg h
    rw [stitchAux_nil, if_neg h]
    exact ⟨buf, rfl⟩
  | cons seg rest ih =>
    intro buf ty pg h
    rw [stitchAux_cons]
    cases hstand : isStandalone roles seg.type with
    | true =>
      rw [if_pos rfl, if_neg h]
      exact ⟨buf, rfl⟩
    | false =>
      rw [if_neg Bool.false_ne_true, if_neg h]
      cases ht : endsWithTerminal buf with
      | true =>
        rw [if_pos rfl]
        exact ⟨buf, rfl⟩
      | false =>
        rw [if_neg Bool.false_ne_true]
        exact ih (buf ++ " " ++ seg.text) ty pg (append_ne_empty buf seg.text)

/-- C10: a flowing unit stitched from several segments keeps the page number
and the type of the first segment that started its buffer.  Appending a second
flowing segment merges its text into the first segment's unit and discards the
second segment's page and type, so a unit stitched across a page break reports
the starting page. -/
theorem stitched_unit_keeps_first_page (roles : List String) (a b : ContentItem)
    (rest : List ContentItem)
    (ha : isStandalone roles a.type = false) (hb : isStandalone roles b.type = false)
    (hatext : a.text ≠ "") (hnoterm : endsWithTerminal a.text = false) :
    stitch roles (a :: b :: rest) =
      stitch roles (⟨a.text ++ " " ++ b.text, a.type, a.page⟩ :: rest)
    ∧ ∃ t, (stitch roles (a :: b :: rest)).head? = some ⟨t, a.type, a.page⟩ := by
  have hred : stitch roles (a :: b :: rest) =
      stitchAux roles rest (a.text ++ " " ++ b.text) a.type a.page := by
    show stitchAux roles (a :: b :: rest) "" "paragraph" 0 = _
    rw [stitchAux_cons, if_neg (by simp [ha]), if_pos rfl,
      stitchAux_cons, if_neg (by simp [hb]), if_neg hatext, if_neg (by simp [hnoterm])]
  constructor
  · rw [hred]
    show _ = stitchAux roles (⟨a.text ++ " " ++ b.text, a.type, a.page⟩ :: rest) "" "paragraph" 0
    rw [stitchAux_cons]
    rw [if_neg (by simp [isStandalone]; simp [isStandalone] at ha; exact ha), if_pos rfl]
  · rw [hred]
    exact stitchAux_head roles rest (a.text ++ " " ++ b.text) a.type a.page
      (append_ne_empty a.text b.text)

/-- Witness for `stitched_unit_keeps_first_page`: "Hello" on page 1 followed by
"world." on page 2 stitches into a unit reported on page 1. -/
theorem stitched_unit_keeps_first_page_witness :
    ∃ t, (stitch STRUCTURAL_ROLES
        [⟨"Hello", "paragraph", 1⟩, ⟨"world.", "paragraph", 2⟩]).head? =
      some ⟨t, "paragraph", 1⟩ :=
  (stitched_unit_keeps_first_page STRUCTURAL_ROLES ⟨"Hello", "paragraph", 1⟩
    ⟨"world.", "paragraph", 2⟩ [] (by decide) (by decide) (by decide) (by decide)).2

/-- Normalized position `i / num` with the guard
`i / num_eng if num_eng > 0 else 0` from `_calculate_proximity_matrix`. -/
def normPos (i n : Nat) : ℚ := if 0 < n then (i : ℚ) / (n : ℚ) else 0

/-- One entry of the proximity matrix: `1.0 - abs(norm_pos_eng - norm_pos_ger)`. -/
def proximityEntry (nA nB i j : Nat) : ℚ := 1 - |normPos i nA - normPos j nB|

/-- C8: for non-empty sequences the proximity entry equals
`1 - |i/:A: - j/:B:|`, a sequence of length at most one contributes normalized
position `0` for all of its indices, and every entry lies in `[0, 1]`. -/
theorem proximity_entry_formula (nA nB i j : Nat)
    (hA : 1 ≤ nA) (hB : 1 ≤ nB) (hi : i < nA) (hj : j < nB) :
    proximityEntry nA nB i j = 1 - |(i : ℚ) / (nA : ℚ) - (j : ℚ) / (nB : ℚ)|
    ∧ (∀ n i', n ≤ 1 → i' < n → normPos i' n = 0)
    ∧ 0 ≤ proximityEntry nA nB i j ∧ proximityEntry nA nB i j ≤ 1 := by
  have hA' : (0 : ℚ) < (nA : ℚ) := by exact_mod_cast hA
  have hB' : (0 : ℚ) < (nB : ℚ) := by exact_mod_cast hB
  have hnx : normPos i nA = (i : ℚ) / (nA : ℚ) := by
    rw [normPos, if_pos (show 0 < nA by omega)]
  have hny : normPos j nB = (j : ℚ) / (nB : ℚ) := by
    rw [normPos, if_pos (show 0 < nB by omega)]
  have hx0 : (0 : ℚ) ≤ (i : ℚ) / (nA : ℚ) := div_nonneg (by positivity) (le_of_lt hA')
  have hy0 : (0 : ℚ) ≤ (j : ℚ) / (nB : ℚ) := div_nonneg (by positivity) (le_of_lt hB')
  have hx1 : (i : ℚ) / (nA : ℚ) < 1 := by
    rw [div_lt_one hA']; exact_mod_cast hi
  have hy1 : (j : ℚ) / (nB : ℚ) < 1 := by
    rw [div_lt_one hB']; exact_mod_cast hj
  have habs : |(i : ℚ) / (nA : ℚ) - (j : ℚ) / (nB : ℚ)| ≤ 1 := by
    rw [abs_le]; constructor <;> linarith
  have habs0 : 0 ≤ |(i : ℚ) / (nA : ℚ) - (j : ℚ) / (nB : ℚ)| := abs_nonneg _
  refine ⟨by rw [proximityEntry, hnx, hny], ?_, ?_, ?_⟩
  · intro n i' hn hi'
    have hn1 : n = 1 := by omega
    have hi0 : i' = 0 := by omega
    subst hn1
    subst hi0
    simp [normPos]
  · rw [proximityEntry, hnx, hny]; linarith
  · rw [proximityEntry, hnx, hny]; linarith

/-- Witness for `proximity_entry_formula` at `nA = 2`, `nB = 1`, `i = 1`, `j = 0`. -/
theorem proximity_entry_formula_witness :
    proximityEntry 2 1 1 0 = 1 - |((1 : Nat) : ℚ) / ((2 : Nat) : ℚ) - ((0 : Nat) : ℚ) / ((1 : Nat) : ℚ)|
    ∧ (∀ n i', n ≤ 1 → i' < n → normPos i' n = 0)
    ∧ 0 ≤ proximityEntry 2 1 1 0 ∧ proximityEntry 2 1 1 0 ≤ 1 :=
  proximity_entry_formula 2 1 1 0 (by decide) (by decide) (by decide) (by decide)

/-- First-occurrence argmax over the indices `0, …, n`, as computed by
`np.argmax`: a later index replaces the current best only on a strictly
greater value. -/
def argmaxUpTo (f : Nat → ℚ) : Nat → Nat
  | 0 => 0
  | n + 1 => if f (argmaxUpTo f n) < f (n + 1) then n + 1 else argmaxUpTo f n

/-- `np.argmax` over a row or column of length `n` (meaningful for `0 < n`). -/
def argmaxN (f : Nat → ℚ) (n : Nat) : Nat := argmaxUpTo f (n - 1)

theorem argmaxUpTo_zero (f : Nat → ℚ) : argmaxUpTo f 0 = 0 := rfl

theorem argmaxUpTo_succ (f : Nat → ℚ) (n : Nat) :
    argmaxUpTo f (n + 1) =
      if f (argmaxUpTo f n) < f (n + 1) then n + 1 else argmaxUpTo f n := rfl

theorem argmaxUpTo_le (f : Nat → ℚ) : ∀ n, argmaxUpTo f n ≤ n := by
  intro n
  induction n with
  | zero => exact le_rfl
  | succ n ih =>
    rw [argmaxUpTo_succ]
    by_cases h : f (argmaxUpTo f n) < f (n + 1)
    · rw [if_pos h]
    · rw [if_neg h]
      exact Nat.le_succ_of_le ih

theorem le_argmaxUpTo (f : Nat → ℚ) : ∀ n j, j ≤ n → f j ≤ f (argmaxUpTo f n) := by
  intro n
  induction n with
  | zero =>
    intro j hj
    have : j = 0 := Nat.le_zero.mp hj
    subst this
    exact le_rfl
  | succ n ih =>
    intro j hj
    rw [argmaxUpTo_succ]
    by_cases h : f (argmaxUpTo f n) < f (n + 1)
    · rw [if_pos h]
      rcases Nat.eq_or_lt_of_le hj with heq | hlt
      · rw [heq]
      · exact le_of_lt (lt_of_le_of_lt (ih j (Nat.lt_succ_iff.mp hlt)) h)
    · rw [if_neg h]
      rcases Nat.eq_or_lt_of_le hj with heq | hlt
      · rw [heq]; exact not_lt.mp h
      · exact ih j (Nat.lt_succ_iff.mp hlt)

theorem argmaxUpTo_first (f : Nat → ℚ) :
    ∀ n j, j ≤ n → f j = f (argmaxUpTo f n) → argmaxUpTo f n ≤ j := by
  intro n
  induction n with
  | zero => intro j _ _; exact Nat.zero_le j
  | succ n ih =>
    intro j hj heq
    rw [argmaxUpTo_succ] at heq ⊢
    by_cases h : f (argmaxUpTo f n) < f (n + 1)
    · rw [if_pos h] at heq ⊢
      rcases Nat.eq_or_lt_of_le hj with he | hlt
      · rw [he]
      · exfalso
        have hle := ih j (Nat.lt_succ_iff.mp hlt)
        have : f j ≤ f (argmaxUpTo f n) := le_argmaxUpTo f n j (Nat.lt_succ_iff.mp hlt)
        rw [heq] at this
        exact absurd (lt_of_lt_of_le h this) (lt_irrefl _)
    · rw [if_neg h] at heq ⊢
      rcases Nat.eq_or_lt_of_le hj with he | hlt
      · rw [he]
        exact Nat.le_succ_of_le (argmaxUpTo_le f n)
      · exact ih j (Nat.lt_succ_iff.mp hlt) heq

theorem argmaxN_lt (f : Nat → ℚ) (n : Nat) (hn : 0 < n) : argmaxN f n < n :=
  lt_of_le_of_lt (argmaxUpTo_le f (n - 1)) (Nat.sub_lt hn Nat.one_pos)

theorem le_argmaxN (f : Nat → ℚ) (n j : Nat) (hj : j < n) : f j ≤ f (argmaxN f n) :=
  le_argmaxUpTo f (n - 1) j (Nat.le_sub_one_of_lt hj)

theorem argmaxN_first (f : Nat → ℚ) (n j : Nat) (hj : j < n)
    (heq : f j = f (argmaxN f n)) : argmaxN f n ≤ j :=
  argmaxUpTo_first f (n - 1) j (Nat.le_sub_one_of_lt hj) heq

/-- Row-wise best match `best_ger_matches[i]` (`np.argmax(blended_matrix, axis=1)`). -/
def bestB (bl : Nat → Nat → ℚ) (nB i : Nat) : Nat := argmaxN (fun j => bl i j) nB

/-- Column-wise best match `best_eng_matches[j]` (`np.argmax(blended_matrix, axis=0)`). -/
def bestA (bl : Nat → Nat → ℚ) (nA j : Nat) : Nat := argmaxN (fun i => bl i j) nA

/-- English indices accepted by the matching loop of `align_content`:
`is_mutual_best_match` together with `score >= config.SIMILARITY_THRESHOLD`. -/
def acceptedIdx (bl : Nat → Nat → ℚ) (nA nB : Nat) (t : ℚ) : List Nat :=
  (List.range nA).filter (fun i =>
    bestA bl nA (bestB bl nB i) == i && decide (t ≤ bl i (bestB bl nB i)))

/-- The accepted pairs `(eng_idx, ger_idx)` of the matching loop. -/
def alignPairs (bl : Nat → Nat → ℚ) (nA nB : Nat) (t : ℚ) : List (Nat × Nat) :=
  (acceptedIdx bl nA nB t).map (fun i => (i, bestB bl nB i))

theorem mem_acceptedIdx (bl : Nat → Nat → ℚ) (nA nB : Nat) (t : ℚ) (i : Nat) :
    i ∈ acceptedIdx bl nA nB t ↔
      i < nA ∧ bestA bl nA (bestB bl nB i) = i ∧ t ≤ bl i (bestB bl nB i) := by
  simp [acceptedIdx, List.mem_filter, List.mem_range]

/-- C2: the mutual-best-match strategy accepts `(i, bestB i)` exactly when
`bestA (bestB i) = i` and the blended score clears the threshold, where
`bestB i` is the first (lowest-index) maximizer of row `i` and `bestA j` the
first (lowest-index) maximizer of column `j`. -/
theorem mutual_best_match_characterization (bl : Nat → Nat → ℚ) (nA nB : Nat)
    (t : ℚ) (i j : Nat) (hA : 0 < nA) (hB : 0 < nB) (hi : i < nA) (hj : j < nB) :
    ((i, j) ∈ alignPairs bl nA nB t ↔
      j = bestB bl nB i ∧ bestA bl nA j = i ∧ t ≤ bl i j)
    ∧ (bestB bl nB i < nB
        ∧ (∀ j', j' < nB → bl i j' ≤ bl i (bestB bl nB i))
        ∧ (∀ j', j' < nB → bl i j' = bl i (bestB bl nB i) → bestB bl nB i ≤ j'))
    ∧ (bestA bl nA j < nA
        ∧ (∀ i', i' < nA → bl i' j ≤ bl (bestA bl nA j) j)
        ∧ (∀ i', i' < nA → bl i' j = bl (bestA bl nA j) j → bestA bl nA j ≤ i')) := by
  refine ⟨?_, ⟨argmaxN_lt (fun j'' => bl i j'') nB hB,
      fun j' hj' => le_argmaxN (fun j'' => bl i j'') nB j' hj',
      fun j' hj' he => argmaxN_first (fun j'' => bl i j'') nB j' hj' he⟩,
    ⟨argmaxN_lt (fun i'' => bl i'' j) nA hA,
      fun i' hi' => le_argmaxN (fun i'' => bl i'' j) nA i' hi',
      fun i' hi' he => argmaxN_first (fun i'' => bl i'' j) nA i' hi' he⟩⟩
  constructor
  · intro hmem
    rw [alignPairs, List.mem_map] at hmem
    obtain ⟨i', hi', heq⟩ := hmem
    rw [mem_acceptedIdx] at hi'
    have h1 : i' = i := congrArg Prod.fst heq
    have h2 : bestB bl nB i' = j := congrArg Prod.snd heq
    subst h1
    exact ⟨h2.symm, h2 ▸ hi'.2.1, h2 ▸ hi'.2.2⟩
  · rintro ⟨hjb, hba, ht⟩
    rw [alignPairs, List.mem_map]
    refine ⟨i, ?_, by rw [hjb]⟩
    rw [mem_acceptedIdx]
    exact ⟨hi, by rw [← hjb]; exact hba, by rw [← hjb]; exact ht⟩

/-- Witness for `mutual_best_match_characterization` on the 1×1 matrix with
entry `1` and threshold `1/2`: the pair `(0, 0)` is accepted. -/
theorem mutual_best_match_characterization_witness :
    ((0, 0) ∈ alignPairs (fun _ _ => (1 : ℚ)) 1 1 (1 / 2) ↔
      0 = bestB (fun _ _ => (1 : ℚ)) 1 0
        ∧ bestA (fun _ _ => (1 : ℚ)) 1 0 = 0 ∧ (1 / 2 : ℚ) ≤ 1)
    ∧ (bestB (fun _ _ => (1 : ℚ)) 1 0 < 1
        ∧ (∀ j', j' < 1 → (1 : ℚ) ≤ 1)
        ∧ (∀ j', j' < 1 → (1 : ℚ) = 1 → bestB (fun _ _ => (1 : ℚ)) 1 0 ≤ j'))
    ∧ (bestA (fun _ _ => (1 : ℚ)) 1 0 < 1
        ∧ (∀ i', i' < 1 → (1 : ℚ) ≤ 1)
        ∧ (∀ i', i' < 1 → (1 : ℚ) = 1 → bestA (fun _ _ => (1 : ℚ)) 1 0 ≤ i')) :=
  mutual_best_match_characterization (fun _ _ => (1 : ℚ)) 1 1 (1 / 2) 0 0
    (by decide) (by decide) (by decide) (by decide)

/-- An aligned-pair or unmatched record appended by `align_content`: a dict
with keys `english`, `german` and `similarity`. -/
structure AlignmentRecord where
  english : Option ContentItem
  german : Option ContentItem
  similarity : ℚ
  deriving DecidableEq, Repr

/-- One entry of `_calculate_type_matrix`. -/
def typeEntry (A B : List ContentItem) (i j : Nat) : ℚ :=
  if (A.getD i defaultCI).type = (B.getD j defaultCI).type then TYPE_MATCH_BONUS
  else TYPE_MISMATCH_PENALTY

/-- The blended score matrix of `align_content`:
`W_SEMANTIC·semantic + W_TYPE·type + W_PROXIMITY·proximity`. -/
def blendedMatrix (A B : List ContentItem) (sem : Nat → Nat → ℚ) (i j : Nat) : ℚ :=
  W_SEMANTIC * sem i j + W_TYPE * typeEntry A B i j
    + W_PROXIMITY * proximityEntry A.length B.length i j

/-- `used_german_indices` accumulated by the matching loop. -/
def usedGer (bl : Nat → Nat → ℚ) (nA nB : Nat) (t : ℚ) : List Nat :=
  (acceptedIdx bl nA nB t).map (bestB bl nB)

/-- The accepted-pair records of `align_content`, in loop order. -/
def pairRecords (A B : List ContentItem) (sem : Nat → Nat → ℚ) (t : ℚ) :
    List AlignmentRecord :=
  (acceptedIdx (blendedMatrix A B sem) A.length B.length t).map (fun i =>
    ⟨some (A.getD i defaultCI),
      some (B.getD (bestB (blendedMatrix A B sem) B.length i) defaultCI),
      sem i (bestB (blendedMatrix A B sem) B.length i)⟩)

/-- The unmatched-English records (`german=None, similarity=0.0`). -/
def unmatchedEng (A B : List ContentItem) (sem : Nat → Nat → ℚ) (t : ℚ) :
    List AlignmentRecord :=
  ((List.range A.length).filter (fun i =>
      !(decide (i ∈ acceptedIdx (blendedMatrix A B sem) A.length B.length t)))).map
    (fun i => ⟨some (A.getD i defaultCI), none, 0⟩)

/-- The unmatched-German records (`english=None, similarity=0.0`). -/
def unmatchedGer (A B : List ContentItem) (sem : Nat → Nat → ℚ) (t : ℚ) :
    List AlignmentRecord :=
  ((List.range B.length).filter (fun j =>
      !(decide (j ∈ usedGer (blendedMatrix A B sem) A.length B.length t)))).map
    (fun j => ⟨none, some (B.getD j defaultCI), 0⟩)

/-- All records in production order: accepted pairs, then unmatched English,
then unmatched German. -/
def recordsPre (A B : List ContentItem) (sem : Nat → Nat → ℚ) (t : ℚ) :
    List AlignmentRecord :=
  pairRecords A B sem t ++ unmatchedEng A B sem t ++ unmatchedGer A B sem t

/-- The sort key of `aligned_pairs.sort`: the source unit's page, with
`float('inf')` for records that have no source unit. -/
def recKey (r : AlignmentRecord) : WithTop Nat :=
  match r.english with
  | some u => (u.page : WithTop Nat)
  | none => ⊤

/-- Stable insertion of a record into a key-sorted list: the new record goes
before the first strictly greater key, after all equal keys. -/
def insertRecord (r : AlignmentRecord) : List AlignmentRecord → List AlignmentRecord
  | [] => [r]
  | b :: l => if recKey r ≤ recKey b then r :: b :: l else b :: insertRecord r l

/-- A stable sort by `recKey`, extensionally equal to Python's stable
`list.sort(key=...)`. -/
def sortRecs : List AlignmentRecord → List AlignmentRecord
  | [] => []
  | r :: l => insertRecord r (sortRecs l)

/-- `align_content`, with the semantic matrix (produced by the external
embedding service) and the similarity threshold as inputs. -/
def alignContent (A B : List ContentItem) (sem : Nat → Nat → ℚ) (t : ℚ) :
    List AlignmentRecord :=
  if A.isEmpty || B.isEmpty then [] else sortRecs (recordsPre A B sem t)

/-- C9: with an empty unit sequence on either side `align_content` raises no
error and returns the empty record sequence. -/
theorem empty_input_yields_empty (A B : List ContentItem) (sem : Nat → Nat → ℚ)
    (t : ℚ) (h : A = [] ∨ B = []) : alignContent A B sem t = [] := by
  rcases h with h | h <;> subst h <;> simp [alignContent]

/-- Witness for `empty_input_yields_empty`: a non-empty English side against an
empty German side yields no records. -/
theorem empty_input_yields_empty_witness :
    alignContent [defaultCI] [] (fun _ _ => 0) SIMILARITY_THRESHOLD = [] :=
  empty_input_yields_empty [defaultCI] [] (fun _ _ => 0) SIMILARITY_THRESHOLD
    (Or.inr rfl)

theorem insertRecord_nil (r : AlignmentRecord) : insertRecord r [] = [r] := rfl

theorem insertRecord_cons (r b : AlignmentRecord) (l : List AlignmentRecord) :
    insertRecord r (b :: l) =
      if recKey r ≤ recKey b then r :: b :: l else b :: insertRecord r l := rfl

theorem insertRecord_perm (r : AlignmentRecord) (l : List AlignmentRecord) :
    (insertRecord r l).Perm (r :: l) := by
  induction l with
  | nil => exact List.Perm.refl _
  | cons b l ih =>
    rw [insertRecord_cons]
    by_cases h : recKey r ≤ recKey b
    · rw [if_pos h]
    · rw [if_neg h]
      exact (ih.cons b).trans (List.Perm.swap r b l)

theorem sortRecs_perm (l : List AlignmentRecord) : (sortRecs l).Perm l := by
  induction l with
  | nil => exact List.Perm.refl _
  | cons r l ih =>
    exact (insertRecord_perm r (sortRecs l)).trans (ih.cons r)

theorem insertRecord_pairwise (r : AlignmentRecord) (l : List AlignmentRecord)
    (hl : l.Pairwise (fun a b => recKey a ≤ recKey b)) :
    (insertRecord r l).Pairwise (fun a b => recKey a ≤ recKey b) := by
  induction l with
  | nil => simp [insertRecord_nil]
  | cons b l ih =>
    rw [List.pairwise_cons] at hl
    obtain ⟨hb, hl'⟩ := hl
    rw [insertRecord_cons]
    by_cases h : recKey r ≤ recKey b
    · rw [if_pos h]
      rw [List.pairwise_cons]
      refine ⟨?_, List.pairwise_cons.mpr ⟨hb, hl'⟩⟩
      intro x hx
      rcases List.mem_cons.mp hx with he | hm
      · rw [he]; exact h
      · exact le_trans h (hb x hm)
    · rw [if_neg h]
      rw [List.pairwise_cons]
      refine ⟨?_, ih hl'⟩
      intro x hx
      have hx' : x ∈ r :: l := (insertRecord_perm r l).mem_iff.mp hx
      rcases List.mem_cons.mp hx' with he | hm
      · rw [he]; exact le_of_not_le h
      · exact hb x hm

theorem sortRecs_pairwise (l : List AlignmentRecord) :
    (sortRecs l).Pairwise (fun a b => recKey a ≤ recKey b) := by
  induction l with
  | nil => exact List.Pairwise.nil
  | cons r l ih => exact insertRecord_pairwise r (sortRecs l) ih

theorem insertRecord_filter_key (r : AlignmentRecord) (l : List AlignmentRecord)
    (k : WithTop Nat) :
    (insertRecord r l).filter (fun x => decide (recKey x = k)) =
      if recKey r = k then r :: l.filter (fun x => decide (recKey x = k))
      else l.filter (fun x => decide (recKey x = k)) := by
  induction l with
  | nil =>
    by_cases h : recKey r = k <;>
      simp [insertRecord_nil, List.filter_cons, h]
  | cons b l ih =>
    rw [insertRecord_cons]
    by_cases h : recKey r ≤ recKey b
    · rw [if_pos h]
      by_cases hr : recKey r = k <;> simp [List.filter_cons, hr]
    · rw [if_neg h]
      have hbr : recKey b < recKey r := lt_of_not_le h
      by_cases hr : recKey r = k
      · have hbk : ¬(recKey b = k) := by
          rw [← hr]
          exact ne_of_lt hbr
        simp [List.filter_cons, hbk, ih, hr]
      · simp [List.filter_cons, ih, hr]

theorem sortRecs_filter_key (l : List AlignmentRecord) (k : WithTop Nat) :
    (sortRecs l).filter (fun x => decide (recKey x = k)) =
      l.filter (fun x => decide (recKey x = k)) := by
  induction l with
  | nil => rfl
  | cons r l ih =>
    show (insertRecord r (sortRecs l)).filter (fun x => decide (recKey x = k)) = _
    rw [insertRecord_filter_key]
    by_cases hr : recKey r = k
    · rw [if_pos hr, ih]
      simp [List.filter_cons, hr]
    · rw [if_neg hr, ih]
      simp [List.filter_cons, hr]

theorem alignContent_eq_sort (A B : List ContentItem) (sem : Nat → Nat → ℚ)
    (t : ℚ) (hA : A ≠ []) (hB : B ≠ []) :
    alignContent A B sem t = sortRecs (recordsPre A B sem t) := by
  rw [alignContent]
  rw [if_neg ?_]
  simp [List.isEmpty_iff, hA, hB]

/-- C7: the assembled output is sorted ascending by the source unit's page
number, records with no source unit come after all records that have one, and
the order is a stable permutation of the production order (accepted pairs,
then unmatched English, then unmatched German): records of equal key keep
their production order. -/
theorem output_ordering (A B : List ContentItem) (sem : Nat → Nat → ℚ) (t : ℚ)
    (hA : A ≠ []) (hB : B ≠ []) :
    (alignContent A B sem t).Pairwise (fun r1 r2 => recKey r1 ≤ recKey r2)
    ∧ (alignContent A B sem t).Pairwise
        (fun r1 r2 => r1.english = none → r2.english = none)
    ∧ (alignContent A B sem t).Perm (recordsPre A B sem t)
    ∧ ∀ k, (alignContent A B sem t).filter (fun r => decide (recKey r = k)) =
        (recordsPre A B sem t).filter (fun r => decide (recKey r = k)) := by
  rw [alignContent_eq_sort A B sem t hA hB]
  have hsorted := sortRecs_pairwise (recordsPre A B sem t)
  refine ⟨hsorted, ?_, sortRecs_perm _, fun k => sortRecs_filter_key _ k⟩
  refine hsorted.imp ?_
  intro a b hab hnone
  have ha : recKey a = ⊤ := by rw [recKey, hnone]
  rw [ha] at hab
  have hb : recKey b = ⊤ := top_le_iff.mp hab
  cases hbe : b.english with
  | none => rfl
  | some u =>
    rw [recKey, hbe] at hb
    exact absurd hb (WithTop.coe_ne_top)

/-- Witness for `output_ordering` on one-element inputs. -/
theorem output_ordering_witness :
    (alignContent [defaultCI] [defaultCI] (fun _ _ => 1) 0).Pairwise
        (fun r1 r2 => recKey r1 ≤ recKey r2)
    ∧ (alignContent [defaultCI] [defaultCI] (fun _ _ => 1) 0).Pairwise
        (fun r1 r2 => r1.english = none → r2.english = none)
    ∧ (alignContent [defaultCI] [defaultCI] (fun _ _ => 1) 0).Perm
        (recordsPre [defaultCI] [defaultCI] (fun _ _ => 1) 0)
    ∧ ∀ k, (alignContent [defaultCI] [defaultCI] (fun _ _ => 1) 0).filter
          (fun r => decide (recKey r = k)) =
        (recordsPre [defaultCI] [defaultCI] (fun _ _ => 1) 0).filter
          (fun r => decide (recKey r = k)) :=
  output_ordering [defaultCI] [defaultCI] (fun _ _ => 1) 0
    (by simp) (by simp)

theorem filterMap_over_map {α β γ : Type} (g : β → Option γ) (f : α → β)
    (l : List α) : (l.map f).filterMap g = l.filterMap (fun a => g (f a)) := by
  induction l with
  | nil => rfl
  | cons a l ih =>
    cases h : g (f a) <;> simp [List.filterMap_cons, h, ih]

theorem filterMap_some_eq_map {α β : Type} (h : α → β) (l : List α) :
    l.filterMap (fun a => some (h a)) = l.map h := by
  induction l with
  | nil => rfl
  | cons a l ih => simp [List.filterMap_cons, ih]

theorem filterMap_none_eq_nil {α β : Type} (l : List α) :
    l.filterMap (fun _ => (none : Option β)) = [] := by
  induction l with
  | nil => rfl
  | cons a l ih => simp [List.filterMap_cons, ih]

theorem map_getD_range {α : Type} (A : List α) (d : α) :
    (List.range A.length).map (fun i => A.getD i d) = A := by
  apply List.ext_getElem
  · simp
  · intro i h1 h2
    simp only [List.getElem_map, List.getElem_range]
    exact List.getD_eq_getElem A d h2

/-- A nodup list `l` of members of a nodup list `r`, followed by the members of
`r` not in `l`, is a permutation of `r`. -/
theorem nodup_cover_perm {l r : List Nat} (hl : l.Nodup) (hr : r.Nodup)
    (hsub : ∀ x ∈ l, x ∈ r) :
    (l ++ r.filter (fun x => !(decide (x ∈ l)))).Perm r := by
  apply (List.perm_ext_iff_of_nodup ?_ hr).mpr
  · intro a
    simp only [List.mem_append, List.mem_filter, Bool.not_eq_true',
      decide_eq_false_iff_not]
    constructor
    · rintro (h | ⟨h, _⟩)
      · exact hsub a h
      · exact h
    · intro h
      by_cases ha : a ∈ l
      · exact Or.inl ha
      · exact Or.inr ⟨h, ha⟩
  · refine List.Nodup.append hl (hr.filter _) ?_
    intro a hal haf
    rw [List.mem_filter] at haf
    simp only [Bool.not_eq_true', decide_eq_false_iff_not] at haf
    exact haf.2 hal

theorem acceptedIdx_nodup (bl : Nat → Nat → ℚ) (nA nB : Nat) (t : ℚ) :
    (acceptedIdx bl nA nB t).Nodup :=
  (List.nodup_range nA).filter _

theorem acceptedIdx_lt (bl : Nat → Nat → ℚ) (nA nB : Nat) (t : ℚ) :
    ∀ i ∈ acceptedIdx bl nA nB t, i < nA := by
  intro i hi
  exact ((mem_acceptedIdx bl nA nB t i).mp hi).1

theorem usedGer_nodup (bl : Nat → Nat → ℚ) (nA nB : Nat) (t : ℚ) :
    (usedGer bl nA nB t).Nodup := by
  refine List.Nodup.map_on ?_ (acceptedIdx_nodup bl nA nB t)
  intro x hx y hy hxy
  rw [mem_acceptedIdx] at hx hy
  calc x = bestA bl nA (bestB bl nB x) := hx.2.1.symm
    _ = bestA bl nA (bestB bl nB y) := by rw [hxy]
    _ = y := hy.2.1

theorem usedGer_lt (bl : Nat → Nat → ℚ) (nA nB : Nat) (t : ℚ) (hB : 0 < nB) :
    ∀ j ∈ usedGer bl nA nB t, j < nB := by
  intro j hj
  rw [usedGer, List.mem_map] at hj
  obtain ⟨i, _, rfl⟩ := hj
  exact argmaxN_lt (fun j' => bl i j') nB hB

/-- C1 fails as stated: with a non-empty English side and an empty German side
`align_content` returns no records at all, so the English unit appears in zero
AlignmentRecords rather than in exactly one. -/
theorem unit_coverage_counterexample :
    alignContent [defaultCI] [] (fun _ _ => 0) SIMILARITY_THRESHOLD = []
    ∧ (alignContent [defaultCI] [] (fun _ _ => 0) SIMILARITY_THRESHOLD).countP
        (fun r => r.english == some defaultCI) = 0 := by
  constructor <;> simp [alignContent]

/-- C1 amended: when both input unit sequences are non-empty, the source units
of the output records are exactly the units of A (each appearing in exactly
one record), and the target units are exactly the units of B. -/
theorem unit_coverage_amended (A B : List ContentItem) (sem : Nat → Nat → ℚ)
    (t : ℚ) (hA : A ≠ []) (hB : B ≠ []) :
    ((alignContent A B sem t).filterMap AlignmentRecord.english).Perm A
    ∧ ((alignContent A B sem t).filterMap AlignmentRecord.german).Perm B := by
  rw [alignContent_eq_sort A B sem t hA hB]
  have hperm := sortRecs_perm (recordsPre A B sem t)
  have hB0 : 0 < B.length := List.length_pos.mpr hB
  have h1 : (pairRecords A B sem t).filterMap AlignmentRecord.english
      = (acceptedIdx (blendedMatrix A B sem) A.length B.length t).map
          (fun i => A.getD i defaultCI) := by
    rw [pairRecords, filterMap_over_map]
    exact filterMap_some_eq_map _ _
  have h2 : (unmatchedEng A B sem t).filterMap AlignmentRecord.english
      = ((List.range A.length).filter (fun i =>
          !(decide (i ∈ acceptedIdx (blendedMatrix A B sem) A.length B.length t)))).map
          (fun i => A.getD i defaultCI) := by
    rw [unmatchedEng, filterMap_over_map]
    exact filterMap_some_eq_map _ _
  have h3 : (unmatchedGer A B sem t).filterMap AlignmentRecord.english = [] := by
    rw [unmatchedGer, filterMap_over_map]
    exact filterMap_none_eq_nil _
  have h4 : (pairRecords A B sem t).filterMap AlignmentRecord.german
      = (usedGer (blendedMatrix A B sem) A.length B.length t).map
          (fun j => B.getD j defaultCI) := by
    rw [pairRecords, filterMap_over_map, usedGer, List.map_map]
    exact filterMap_some_eq_map _ _
  have h5 : (unmatchedEng A B sem t).filterMap AlignmentRecord.german = [] := by
    rw [unmatchedEng, filterMap_over_map]
    exact filterMap_none_eq_nil _
  have h6 : (unmatchedGer A B sem t).filterMap AlignmentRecord.german
      = ((List.range B.length).filter (fun j =>
          !(decide (j ∈ usedGer (blendedMatrix A B sem) A.length B.length t)))).map
          (fun j => B.getD j defaultCI) := by
    rw [unmatchedGer, filterMap_over_map]
    exact filterMap_some_eq_map _ _
  constructor
  · refine (hperm.filterMap AlignmentRecord.english).trans ?_
    rw [recordsPre, List.filterMap_append, List.filterMap_append, h1, h2, h3,
      List.append_nil, ← List.map_append]
    refine List.Perm.trans (List.Perm.map _ ?_) (by rw [map_getD_range])
    exact nodup_cover_perm (acceptedIdx_nodup _ _ _ _) (List.nodup_range _)
      (fun x hx => List.mem_range.mpr (acceptedIdx_lt _ _ _ _ x hx))
  · refine (hperm.filterMap AlignmentRecord.german).trans ?_
    rw [recordsPre, List.filterMap_append, List.filterMap_append, h4, h5, h6,
      List.append_nil, ← List.map_append]
    refine List.Perm.trans (List.Perm.map _ ?_) (by rw [map_getD_range])
    exact nodup_cover_perm (usedGer_nodup _ _ _ _) (List.nodup_range _)
      (fun x hx => List.mem_range.mpr (usedGer_lt _ _ _ _ hB0 x hx))

/-- Witness for `unit_coverage_amended` on one-element inputs. -/
theorem unit_coverage_amended_witness :
    ((alignContent [⟨"a", "paragraph", 1⟩] [⟨"b", "paragraph", 2⟩]
        (fun _ _ => 1) 0).filterMap AlignmentRecord.english).Perm
      [⟨"a", "paragraph", 1⟩]
    ∧ ((alignContent [⟨"a", "paragraph", 1⟩] [⟨"b", "paragraph", 2⟩]
        (fun _ _ => 1) 0).filterMap AlignmentRecord.german).Perm
      [⟨"b", "paragraph", 2⟩] :=
  unit_coverage_amended [⟨"a", "paragraph", 1⟩] [⟨"b", "paragraph", 2⟩]
    (fun _ _ => 1) 0 (by simp) (by simp)

/-- All injective sequences of `n` column indices drawn from `0, …, m-1`:
the candidate one-to-one assignments of rows `0, …, n-1` to distinct columns. -/
def injSeqs (m : Nat) : Nat → List (List Nat)
  | 0 => [[]]
  | n + 1 =>
    (List.range m).flatMap (fun j =>
      ((injSeqs m n).filter (fun s => !(decide (j ∈ s)))).map (fun s => j :: s))

/-- Total cost of assigning row `k + i` to column `s[i]`, for each `i`. -/
def seqCostAux (cost : Nat → Nat → ℚ) : Nat → List Nat → ℚ
  | _, [] => 0
  | k, j :: s => cost k j + seqCostAux cost (k + 1) s

/-- The row/column pairs `(k, s[0]), (k+1, s[1]), …`. -/
def pairsOfSeq : Nat → List Nat → List (Nat × Nat)
  | _, [] => []
  | k, j :: s => (k, j) :: pairsOfSeq (k + 1) s

/-- First occurrence of a cost-minimal element. -/
def minBy {α : Type} (f : α → ℚ) : List α → Option α
  | [] => none
  | a :: l => some (l.foldl (fun b x => if f x < f b then x else b) a)

/-- Models `scipy.optimize.linear_sum_assignment` on an `n × m` cost matrix
(an external library routine, not part of this repository): a
minimum-total-cost one-to-one assignment covering the shorter side, computed
by brute force over all candidate assignments.  When `n ≤ m` every row gets a
distinct column, otherwise every column gets a distinct row. -/
def optAssign (cost : Nat → Nat → ℚ) (n m : Nat) : List (Nat × Nat) :=
  if n ≤ m then
    match minBy (seqCostAux cost 0) (injSeqs m n) with
    | some s => pairsOfSeq 0 s
    | none => []
  else
    match minBy (seqCostAux (fun j i => cost i j) 0) (injSeqs n m) with
    | some s => (pairsOfSeq 0 s).map (fun p => (p.2, p.1))
    | none => []

/-- Total cost of a list of index pairs. -/
def matchCost (cost : Nat → Nat → ℚ) (M : List (Nat × Nat)) : ℚ :=
  (M.map (fun p => cost p.1 p.2)).sum

/-- The cost matrix `cost_matrix = -similarity_matrix` of `align_tocs`. -/
def tocCost (sim : Nat → Nat → ℚ) (i j : Nat) : ℚ := -(sim i j)

/-- The tentative optimal pairs of `align_tocs` filtered by `score > t`
(the source hard-codes `t = 0.4`). -/
def tocRetained (sim : Nat → Nat → ℚ) (n m : Nat) (t : ℚ) : List (Nat × Nat) :=
  (optAssign (tocCost sim) n m).filter (fun p => decide (t < sim p.1 p.2))

/-- A table-of-contents entry (dict with key `title`). -/
structure TocItem where
  title : String
  deriving DecidableEq, Repr

/-- An aligned section pair returned by `align_tocs`. -/
structure TocRecord where
  english : TocItem
  german : TocItem
  similarity : ℚ
  deriving DecidableEq, Repr

/-- `align_tocs`, with the similarity matrix (computed from external
embeddings) as input; the score threshold in the source is `0.4 = 2/5`. -/
def tocAlign (TA TB : List TocItem) (sim : Nat → Nat → ℚ) : List TocRecord :=
  if TA.isEmpty || TB.isEmpty then []
  else (tocRetained sim TA.length TB.length (2 / 5)).map
    (fun p => ⟨TA.getD p.1 ⟨""⟩, TB.getD p.2 ⟨""⟩, sim p.1 p.2⟩)

theorem mem_injSeqs_succ {m n : Nat} {x : List Nat} :
    x ∈ injSeqs m (n + 1) ↔
      ∃ j s, x = j :: s ∧ j < m ∧ s ∈ injSeqs m n ∧ j ∉ s := by
  simp only [injSeqs, List.mem_flatMap, List.mem_map, List.mem_filter,
    List.mem_range, Bool.not_eq_true', decide_eq_false_iff_not]
  constructor
  · rintro ⟨j, hj, s, ⟨hs, hjs⟩, rfl⟩
    exact ⟨j, s, rfl, hj, hs, hjs⟩
  · rintro ⟨j, s, rfl, hj, hs, hjs⟩
    exact ⟨j, hj, s, ⟨hs, hjs⟩, rfl⟩

theorem mem_injSeqs {m : Nat} : ∀ {n : Nat} {x : List Nat},
    x ∈ injSeqs m n ↔ x.length = n ∧ x.Nodup ∧ ∀ j ∈ x, j < m := by
  intro n
  induction n with
  | zero =>
    intro x
    show x ∈ [[]] ↔ _
    simp only [List.mem_singleton]
    constructor
    · rintro rfl
      simp
    · rintro ⟨h, _, _⟩
      exact List.eq_nil_of_length_eq_zero h
  | succ n ih =>
    intro x
    rw [mem_injSeqs_succ]
    constructor
    · rintro ⟨j, s, rfl, hj, hs, hjs⟩
      obtain ⟨hlen, hnd, hbound⟩ := ih.mp hs
      refine ⟨by simp [hlen], List.nodup_cons.mpr ⟨hjs, hnd⟩, ?_⟩
      intro j' hj'
      rcases List.mem_cons.mp hj' with rfl | hm
      · exact hj
      · exact hbound j' hm
    · rintro ⟨hlen, hnd, hbound⟩
      cases x with
      | nil => simp at hlen
      | cons j s =>
        rw [List.nodup_cons] at hnd
        refine ⟨j, s, rfl, hbound j (List.mem_cons_self j s),
          ih.mpr ⟨?_, hnd.2, ?_⟩, hnd.1⟩
        · simpa using hlen
        · intro j' hj'
          exact hbound j' (List.mem_cons_of_mem j hj')

theorem injSeqs_nonempty {m n : Nat} (h : n ≤ m) :
    List.range' 0 n ∈ injSeqs m n := by
  rw [mem_injSeqs]
  refine ⟨List.length_range' 0 1 n, List.nodup_range' 0 n, ?_⟩
  intro j hj
  rw [List.mem_range'] at hj
  omega

theorem foldl_min_mem {α : Type} (f : α → ℚ) :
    ∀ (l : List α) (a : α),
      (l.foldl (fun b x => if f x < f b then x else b) a) = a
      ∨ (l.foldl (fun b x => if f x < f b then x else b) a) ∈ l := by
  intro l
  induction l with
  | nil => intro a; exact Or.inl rfl
  | cons x l ih =>
    intro a
    rw [List.foldl_cons]
    by_cases hc : f x < f a
    · rw [if_pos hc]
      rcases ih x with h | h
      · exact Or.inr (by rw [h]; exact List.mem_cons_self x l)
      · exact Or.inr (List.mem_cons_of_mem x h)
    · rw [if_neg hc]
      rcases ih a with h | h
      · exact Or.inl h
      · exact Or.inr (List.mem_cons_of_mem x h)

theorem foldl_min_le {α : Type} (f : α → ℚ) :
    ∀ (l : List α) (a : α),
      f (l.foldl (fun b x => if f x < f b then x else b) a) ≤ f a
      ∧ ∀ x ∈ l, f (l.foldl (fun b x => if f x < f b then x else b) a) ≤ f x := by
  intro l
  induction l with
  | nil =>
    intro a
    exact ⟨le_rfl, by simp⟩
  | cons x l ih =>
    intro a
    rw [List.foldl_cons]
    obtain ⟨h1, h2⟩ := ih (if f x < f a then x else a)
    constructor
    · refine le_trans h1 ?_
      by_cases hc : f x < f a
      · rw [if_pos hc]
        exact le_of_lt hc
      · rw [if_neg hc]
    · intro y hy
      rcases List.mem_cons.mp hy with rfl | hm
      · refine le_trans h1 ?_
        by_cases hc : f y < f a
        · rw [if_pos hc]
        · rw [if_neg hc]
          exact not_lt.mp hc
      · exact h2 y hm

theorem minBy_of_ne_nil {α : Type} (f : α → ℚ) (l : List α) (h : l ≠ []) :
    ∃ a, minBy f l = some a ∧ a ∈ l ∧ ∀ x ∈ l, f a ≤ f x := by
  cases l with
  | nil => exact absurd rfl h
  | cons b l' =>
    refine ⟨_, rfl, ?_, ?_⟩
    · rcases foldl_min_mem f l' b with h' | h'
      · rw [h']
        exact List.mem_cons_self b l'
      · exact List.mem_cons_of_mem b h'
    · intro x hx
      obtain ⟨h1, h2⟩ := foldl_min_le f l' b
      rcases List.mem_cons.mp hx with rfl | hm
      · exact h1
      · exact h2 x hm

theorem pairsOfSeq_nil (k : Nat) : pairsOfSeq k [] = [] := rfl

theorem pairsOfSeq_cons (k j : Nat) (s : List Nat) :
    pairsOfSeq k (j :: s) = (k, j) :: pairsOfSeq (k + 1) s := rfl

theorem pairsOfSeq_length : ∀ (s : List Nat) (k : Nat),
    (pairsOfSeq k s).length = s.length := by
  intro s
  induction s with
  | nil => intro k; rfl
  | cons j s ih =>
    intro k
    rw [pairsOfSeq_cons, List.length_cons, List.length_cons, ih (k + 1)]

theorem pairsOfSeq_map_fst : ∀ (s : List Nat) (k : Nat),
    (pairsOfSeq k s).map Prod.fst = List.range' k s.length := by
  intro s
  induction s with
  | nil => intro k; rfl
  | cons j s ih =>
    intro k
    rw [pairsOfSeq_cons, List.map_cons, ih (k + 1), List.length_cons,
      List.range'_succ]

theorem pairsOfSeq_map_snd : ∀ (s : List Nat) (k : Nat),
    (pairsOfSeq k s).map Prod.snd = s := by
  intro s
  induction s with
  | nil => intro k; rfl
  | cons j s ih =>
    intro k
    rw [pairsOfSeq_cons, List.map_cons, ih (k + 1)]

theorem pairsOfSeq_cost (cost : Nat → Nat → ℚ) : ∀ (s : List Nat) (k : Nat),
    matchCost cost (pairsOfSeq k s) = seqCostAux cost k s := by
  intro s
  induction s with
  | nil => intro k; rfl
  | cons j s ih =>
    intro k
    show matchCost cost ((k, j) :: pairsOfSeq (k + 1) s)
      = cost k j + seqCostAux cost (k + 1) s
    rw [matchCost, List.map_cons, List.sum_cons]
    show cost k j + matchCost cost (pairsOfSeq (k + 1) s) = _
    rw [ih (k + 1)]

theorem mem_pairsOfSeq (p : Nat × Nat) : ∀ (s : List Nat) (k : Nat),
    p ∈ pairsOfSeq k s → k ≤ p.1 ∧ p.1 < k + s.length ∧ p.2 ∈ s := by
  intro s
  induction s with
  | nil =>
    intro k h
    rw [pairsOfSeq_nil] at h
    exact absurd h (List.not_mem_nil p)
  | cons j s ih =>
    intro k h
    rw [pairsOfSeq_cons] at h
    rcases List.mem_cons.mp h with rfl | hm
    · exact ⟨le_rfl, by simp, List.mem_cons_self j s⟩
    · obtain ⟨h1, h2, h3⟩ := ih (k + 1) hm
      refine ⟨by omega, ?_, List.mem_cons_of_mem j h3⟩
      rw [List.length_cons]
      omega

theorem pairsOfSeq_covers : ∀ (s : List Nat) (k i : Nat),
    k ≤ i → i < k + s.length → ∃ j, (i, j) ∈ pairsOfSeq k s := by
  intro s
  induction s with
  | nil =>
    intro k i h1 h2
    rw [List.length_nil] at h2
    omega
  | cons j s ih =>
    intro k i h1 h2
    by_cases he : i = k
    · subst he
      exact ⟨j, List.mem_cons_self _ _⟩
    · rw [List.length_cons] at h2
      obtain ⟨j', hj'⟩ := ih (k + 1) i (by omega) (by omega)
      exact ⟨j', List.mem_cons_of_mem _ hj'⟩

/-- The column choices `σ k, σ (k+1), …, σ (k+n-1)` as a list. -/
def colsOf (σ : Nat → Nat) : Nat → Nat → List Nat
  | _, 0 => []
  | k, n + 1 => σ k :: colsOf σ (k + 1) n

theorem colsOf_zero (σ : Nat → Nat) (k : Nat) : colsOf σ k 0 = [] := rfl

theorem colsOf_succ (σ : Nat → Nat) (k n : Nat) :
    colsOf σ k (n + 1) = σ k :: colsOf σ (k + 1) n := rfl

theorem mem_colsOf (σ : Nat → Nat) : ∀ (n k j : Nat),
    j ∈ colsOf σ k n ↔ ∃ i, k ≤ i ∧ i < k + n ∧ j = σ i := by
  intro n
  induction n with
  | zero =>
    intro k j
    rw [colsOf_zero]
    simp only [List.not_mem_nil, false_iff]
    rintro ⟨i, h1, h2, _⟩
    omega
  | succ n ih =>
    intro k j
    rw [colsOf_succ]
    constructor
    · intro h
      rcases List.mem_cons.mp h with rfl | hm
      · exact ⟨k, le_rfl, by omega, rfl⟩
      · obtain ⟨i, h1, h2, h3⟩ := (ih (k + 1) j).mp hm
        exact ⟨i, by omega, by omega, h3⟩
    · rintro ⟨i, h1, h2, rfl⟩
      by_cases he : i = k
      · subst he
        exact List.mem_cons_self _ _
      · exact List.mem_cons_of_mem _ ((ih (k + 1) (σ i)).mpr ⟨i, by omega, by omega, rfl⟩)

theorem colsOf_mem_injSeqs {m : Nat} (σ : Nat → Nat) : ∀ (n k : Nat),
    (∀ i, k ≤ i → i < k + n → σ i < m) →
    (∀ i1 i2, k ≤ i1 → i1 < k + n → k ≤ i2 → i2 < k + n → σ i1 = σ i2 → i1 = i2) →
    colsOf σ k n ∈ injSeqs m n := by
  intro n
  induction n with
  | zero =>
    intro k _ _
    rw [colsOf_zero]
    rw [mem_injSeqs]
    simp
  | succ n ih =>
    intro k hb hinj
    rw [colsOf_succ, mem_injSeqs_succ]
    refine ⟨σ k, colsOf σ (k + 1) n, rfl, hb k le_rfl (by omega), ?_, ?_⟩
    · exact ih (k + 1) (fun i h1 h2 => hb i (by omega) (by omega))
        (fun i1 i2 h1 h2 h3 h4 he => hinj i1 i2 (by omega) (by omega) (by omega) (by omega) he)
    · intro hmem
      obtain ⟨i, h1, h2, h3⟩ := (mem_colsOf σ n (k + 1) (σ k)).mp hmem
      have := hinj k i le_rfl (by omega) (by omega) (by omega) h3
      omega

theorem seqCostAux_colsOf (cost : Nat → Nat → ℚ) (σ : Nat → Nat) :
    ∀ (n k : Nat), seqCostAux cost k (colsOf σ k n)
      = matchCost cost ((List.range' k n).map (fun i => (i, σ i))) := by
  intro n
  induction n with
  | zero => intro k; rfl
  | succ n ih =>
    intro k
    rw [colsOf_succ, List.range'_succ, List.map_cons]
    show cost k (σ k) + seqCostAux cost (k + 1) (colsOf σ (k + 1) n) = _
    rw [ih (k + 1)]
    show cost k (σ k)
        + matchCost cost ((List.range' (k + 1) n).map (fun i => (i, σ i)))
      = matchCost cost ((k, σ k) :: (List.range' (k + 1) n).map (fun i => (i, σ i)))
    rw [matchCost, matchCost, List.map_cons, List.sum_cons]

/-- The chosen assignment for the branch `n ≤ m`: it exists, it is an
injective sequence, and it is cost-minimal among all one-to-one assignments of
the `n` rows to distinct columns. -/
theorem optAssign_branch (cost : Nat → Nat → ℚ) (n m : Nat) (h : n ≤ m) :
    ∃ s, minBy (seqCostAux cost 0) (injSeqs m n) = some s
      ∧ s.length = n ∧ s.Nodup ∧ (∀ j ∈ s, j < m)
      ∧ ∀ σ : Nat → Nat, (∀ i, i < n → σ i < m) →
          (∀ i1 i2, i1 < n → i2 < n → σ i1 = σ i2 → i1 = i2) →
          seqCostAux cost 0 s
            ≤ matchCost cost ((List.range n).map (fun i => (i, σ i))) := by
  obtain ⟨s, hmb, hmem, hmin⟩ :=
    minBy_of_ne_nil (seqCostAux cost 0) (injSeqs m n)
      (List.ne_nil_of_mem (injSeqs_nonempty h))
  obtain ⟨hlen, hnd, hbd⟩ := mem_injSeqs.mp hmem
  refine ⟨s, hmb, hlen, hnd, hbd, ?_⟩
  intro σ hσb hσi
  have hcols : colsOf σ 0 n ∈ injSeqs m n :=
    colsOf_mem_injSeqs σ n 0 (fun i _ h2 => hσb i (by omega))
      (fun i1 i2 _ h2 _ h4 he => hσi i1 i2 (by omega) (by omega) he)
  have heq : seqCostAux cost 0 (colsOf σ 0 n)
      = matchCost cost ((List.range n).map (fun i => (i, σ i))) := by
    rw [seqCostAux_colsOf cost σ n 0, List.range_eq_range']
  exact (hmin _ hcols).trans (le_of_eq heq)

theorem optAssign_eq_le (cost : Nat → Nat → ℚ) (n m : Nat) (h : n ≤ m)
    (s : List Nat) (hmb : minBy (seqCostAux cost 0) (injSeqs m n) = some s) :
    optAssign cost n m = pairsOfSeq 0 s := by
  rw [optAssign, if_pos h, hmb]

theorem optAssign_eq_gt (cost : Nat → Nat → ℚ) (n m : Nat) (h : ¬n ≤ m)
    (s : List Nat)
    (hmb : minBy (seqCostAux (fun j i => cost i j) 0) (injSeqs n m) = some s) :
    optAssign cost n m = (pairsOfSeq 0 s).map (fun p => (p.2, p.1)) := by
  rw [optAssign, if_neg h, hmb]

theorem matchCost_map_swap (cost : Nat → Nat → ℚ) (P : List (Nat × Nat)) :
    matchCost cost (P.map (fun p => (p.2, p.1)))
      = matchCost (fun j i => cost i j) P := by
  rw [matchCost, matchCost, List.map_map]
  rfl

theorem optAssign_length (cost : Nat → Nat → ℚ) (n m : Nat) :
    (optAssign cost n m).length = min n m := by
  by_cases h : n ≤ m
  · obtain ⟨s, hmb, hlen, -, -, -⟩ := optAssign_branch cost n m h
    rw [optAssign_eq_le cost n m h s hmb, pairsOfSeq_length, hlen, min_eq_left h]
  · have h' : m ≤ n := le_of_not_le h
    obtain ⟨s, hmb, hlen, -, -, -⟩ := optAssign_branch (fun j i => cost i j) m n h'
    rw [optAssign_eq_gt cost n m h s hmb, List.length_map, pairsOfSeq_length,
      hlen, min_eq_right h']

theorem optAssign_nodup_fst (cost : Nat → Nat → ℚ) (n m : Nat) :
    ((optAssign cost n m).map Prod.fst).Nodup := by
  by_cases h : n ≤ m
  · obtain ⟨s, hmb, hlen, hnd, hbd, -⟩ := optAssign_branch cost n m h
    rw [optAssign_eq_le cost n m h s hmb, pairsOfSeq_map_fst]
    exact List.nodup_range' 0 s.length
  · have h' : m ≤ n := le_of_not_le h
    obtain ⟨s, hmb, hlen, hnd, hbd, -⟩ := optAssign_branch (fun j i => cost i j) m n h'
    rw [optAssign_eq_gt cost n m h s hmb]
    have he : (((pairsOfSeq 0 s).map (fun p => (p.2, p.1))).map Prod.fst)
        = (pairsOfSeq 0 s).map Prod.snd := by
      rw [List.map_map]
      rfl
    rw [he, pairsOfSeq_map_snd]
    exact hnd

theorem optAssign_nodup_snd (cost : Nat → Nat → ℚ) (n m : Nat) :
    ((optAssign cost n m).map Prod.snd).Nodup := by
  by_cases h : n ≤ m
  · obtain ⟨s, hmb, hlen, hnd, hbd, -⟩ := optAssign_branch cost n m h
    rw [optAssign_eq_le cost n m h s hmb, pairsOfSeq_map_snd]
    exact hnd
  · have h' : m ≤ n := le_of_not_le h
    obtain ⟨s, hmb, hlen, hnd, hbd, -⟩ := optAssign_branch (fun j i => cost i j) m n h'
    rw [optAssign_eq_gt cost n m h s hmb]
    have he : (((pairsOfSeq 0 s).map (fun p => (p.2, p.1))).map Prod.snd)
        = (pairsOfSeq 0 s).map Prod.fst := by
      rw [List.map_map]
      rfl
    rw [he, pairsOfSeq_map_fst]
    exact List.nodup_range' 0 s.length

theorem optAssign_bounds (cost : Nat → Nat → ℚ) (n m : Nat) :
    ∀ p ∈ optAssign cost n m, p.1 < n ∧ p.2 < m := by
  by_cases h : n ≤ m
  · obtain ⟨s, hmb, hlen, hnd, hbd, -⟩ := optAssign_branch cost n m h
    intro p hp
    rw [optAssign_eq_le cost n m h s hmb] at hp
    obtain ⟨h1, h2, h3⟩ := mem_pairsOfSeq p s 0 hp
    exact ⟨by omega, hbd p.2 h3⟩
  · have h' : m ≤ n := le_of_not_le h
    obtain ⟨s, hmb, hlen, hnd, hbd, -⟩ := optAssign_branch (fun j i => cost i j) m n h'
    intro p hp
    rw [optAssign_eq_gt cost n m h s hmb, List.mem_map] at hp
    obtain ⟨q, hq, rfl⟩ := hp
    obtain ⟨h1, h2, h3⟩ := mem_pairsOfSeq q s 0 hq
    exact ⟨hbd q.2 h3, show q.1 < m by omega⟩

theorem eq_of_nodup_map {α β : Type} (f : α → β) :
    ∀ (l : List α), (l.map f).Nodup → ∀ a ∈ l, ∀ b ∈ l, f a = f b → a = b := by
  intro l
  induction l with
  | nil =>
    intro _ a ha
    exact absurd ha (List.not_mem_nil a)
  | cons x l ih =>
    intro hnd a ha b hb hfab
    rw [List.map_cons, List.nodup_cons] at hnd
    obtain ⟨hx, hnd'⟩ := hnd
    rcases List.mem_cons.mp ha with rfl | ha' <;> rcases List.mem_cons.mp hb with rfl | hb'
    · rfl
    · exact absurd (by rw [hfab]; exact List.mem_map_of_mem f hb') hx
    · exact absurd (by rw [← hfab]; exact List.mem_map_of_mem f ha') hx
    · exact ih hnd' a ha' b hb' hfab

/-- C3: the optimal-assignment strategy of `align_tocs` first computes a
minimum-cost one-to-one matching with cost `-similarity`, producing exactly
`min |A| |B|` tentative pairs that cover every unit on the shorter side, then
retains a tentative pair only if its score is at least the threshold, and
every rejected pair leaves both of its endpoints unmatched (no retained pair
touches either endpoint). -/
theorem optimal_assignment_properties (sim : Nat → Nat → ℚ) (n m : Nat) (t : ℚ)
    (hn : 0 < n) (hm : 0 < m) :
    (optAssign (tocCost sim) n m).length = min n m
    ∧ (∀ p ∈ optAssign (tocCost sim) n m, p.1 < n ∧ p.2 < m)
    ∧ ((optAssign (tocCost sim) n m).map Prod.fst).Nodup
    ∧ ((optAssign (tocCost sim) n m).map Prod.snd).Nodup
    ∧ (n ≤ m → ∀ i, i < n → ∃ j, (i, j) ∈ optAssign (tocCost sim) n m)
    ∧ (m < n → ∀ j, j < m → ∃ i, (i, j) ∈ optAssign (tocCost sim) n m)
    ∧ (n ≤ m → ∀ σ : Nat → Nat, (∀ i, i < n → σ i < m) →
        (∀ i1 i2, i1 < n → i2 < n → σ i1 = σ i2 → i1 = i2) →
        matchCost (tocCost sim) (optAssign (tocCost sim) n m)
          ≤ matchCost (tocCost sim) ((List.range n).map (fun i => (i, σ i))))
    ∧ (m < n → ∀ σ : Nat → Nat, (∀ j, j < m → σ j < n) →
        (∀ j1 j2, j1 < m → j2 < m → σ j1 = σ j2 → j1 = j2) →
        matchCost (tocCost sim) (optAssign (tocCost sim) n m)
          ≤ matchCost (tocCost sim) ((List.range m).map (fun j => (σ j, j))))
    ∧ (∀ p ∈ tocRetained sim n m t, t ≤ sim p.1 p.2)
    ∧ (∀ p ∈ optAssign (tocCost sim) n m, p ∉ tocRetained sim n m t →
        ∀ q ∈ tocRetained sim n m t, q.1 ≠ p.1 ∧ q.2 ≠ p.2) := by
  have hret : ∀ p ∈ tocRetained sim n m t, t ≤ sim p.1 p.2 := by
    intro p hp
    rw [tocRetained] at hp
    have := List.of_mem_filter hp
    rw [decide_eq_true_eq] at this
    exact le_of_lt this
  have hrel : ∀ p ∈ optAssign (tocCost sim) n m, p ∉ tocRetained sim n m t →
      ∀ q ∈ tocRetained sim n m t, q.1 ≠ p.1 ∧ q.2 ≠ p.2 := by
    intro p hp hpR q hq
    have hqT : q ∈ optAssign (tocCost sim) n m := by
      rw [tocRetained] at hq
      exact List.mem_of_mem_filter hq
    have hqp : q ≠ p := fun he => hpR (he ▸ hq)
    exact ⟨fun h1 => hqp (eq_of_nodup_map Prod.fst _
        (optAssign_nodup_fst (tocCost sim) n m) q hqT p hp h1),
      fun h2 => hqp (eq_of_nodup_map Prod.snd _
        (optAssign_nodup_snd (tocCost sim) n m) q hqT p hp h2)⟩
  refine ⟨optAssign_length (tocCost sim) n m, optAssign_bounds (tocCost sim) n m,
    optAssign_nodup_fst (tocCost sim) n m, optAssign_nodup_snd (tocCost sim) n m,
    ?_, ?_, ?_, ?_, hret, hrel⟩
  · intro h i hi
    obtain ⟨s, hmb, hlen, hnd, hbd, hmin⟩ := optAssign_branch (tocCost sim) n m h
    rw [optAssign_eq_le (tocCost sim) n m h s hmb]
    exact pairsOfSeq_covers s 0 i (Nat.zero_le i) (by omega)
  · intro hmn j hj
    have h : ¬n ≤ m := not_le.mpr hmn
    obtain ⟨s, hmb, hlen, hnd, hbd, hmin⟩ :=
      optAssign_branch (fun j' i' => tocCost sim i' j') m n (le_of_lt hmn)
    rw [optAssign_eq_gt (tocCost sim) n m h s hmb]
    obtain ⟨i', hi'⟩ := pairsOfSeq_covers s 0 j (Nat.zero_le j) (by omega)
    refine ⟨i', List.mem_map.mpr ⟨(j, i'), hi', rfl⟩⟩
  · intro h σ hσb hσi
    obtain ⟨s, hmb, hlen, hnd, hbd, hmin⟩ := optAssign_branch (tocCost sim) n m h
    rw [optAssign_eq_le (tocCost sim) n m h s hmb, pairsOfSeq_cost]
    exact hmin σ hσb hσi
  · intro hmn σ hσb hσi
    have h : ¬n ≤ m := not_le.mpr hmn
    obtain ⟨s, hmb, hlen, hnd, hbd, hmin⟩ :=
      optAssign_branch (fun j' i' => tocCost sim i' j') m n (le_of_lt hmn)
    rw [optAssign_eq_gt (tocCost sim) n m h s hmb, matchCost_map_swap,
      pairsOfSeq_cost]
    have hr : matchCost (tocCost sim) ((List.range m).map (fun j => (σ j, j)))
        = matchCost (fun j' i' => tocCost sim i' j')
            ((List.range m).map (fun j => (j, σ j))) := by
      rw [matchCost, matchCost, List.map_map, List.map_map]
      rfl
    rw [hr]
    exact hmin σ hσb hσi

/-- Witness for `optimal_assignment_properties` on the 1×1 similarity matrix
with entry `1` and threshold `2/5`. -/
theorem optimal_assignment_properties_witness :
    (optAssign (tocCost (fun _ _ => (1 : ℚ))) 1 1).length = min 1 1
    ∧ (∀ p ∈ optAssign (tocCost (fun _ _ => (1 : ℚ))) 1 1, p.1 < 1 ∧ p.2 < 1)
    ∧ ((optAssign (tocCost (fun _ _ => (1 : ℚ))) 1 1).map Prod.fst).Nodup
    ∧ ((optAssign (tocCost (fun _ _ => (1 : ℚ))) 1 1).map Prod.snd).Nodup
    ∧ ((1 : Nat) ≤ 1 → ∀ i, i < 1 →
        ∃ j, (i, j) ∈ optAssign (tocCost (fun _ _ => (1 : ℚ))) 1 1)
    ∧ ((1 : Nat) < 1 → ∀ j, j < 1 →
        ∃ i, (i, j) ∈ optAssign (tocCost (fun _ _ => (1 : ℚ))) 1 1)
    ∧ ((1 : Nat) ≤ 1 → ∀ σ : Nat → Nat, (∀ i, i < 1 → σ i < 1) →
        (∀ i1 i2, i1 < 1 → i2 < 1 → σ i1 = σ i2 → i1 = i2) →
        matchCost (tocCost (fun _ _ => (1 : ℚ)))
            (optAssign (tocCost (fun _ _ => (1 : ℚ))) 1 1)
          ≤ matchCost (tocCost (fun _ _ => (1 : ℚ)))
              ((List.range 1).map (fun i => (i, σ i))))
    ∧ ((1 : Nat) < 1 → ∀ σ : Nat → Nat, (∀ j, j < 1 → σ j < 1) →
        (∀ j1 j2, j1 < 1 → j2 < 1 → σ j1 = σ j2 → j1 = j2) →
        matchCost (tocCost (fun _ _ => (1 : ℚ)))
            (optAssign (tocCost (fun _ _ => (1 : ℚ))) 1 1)
          ≤ matchCost (tocCost (fun _ _ => (1 : ℚ)))
              ((List.range 1).map (fun j => (σ j, j))))
    ∧ (∀ p ∈ tocRetained (fun _ _ => (1 : ℚ)) 1 1 (2 / 5),
        (2 / 5 : ℚ) ≤ (fun _ _ => (1 : ℚ)) p.1 p.2)
    ∧ (∀ p ∈ optAssign (tocCost (fun _ _ => (1 : ℚ))) 1 1,
        p ∉ tocRetained (fun _ _ => (1 : ℚ)) 1 1 (2 / 5) →
        ∀ q ∈ tocRetained (fun _ _ => (1 : ℚ)) 1 1 (2 / 5),
          q.1 ≠ p.1 ∧ q.2 ≠ p.2) :=
  optimal_assignment_properties (fun _ _ => (1 : ℚ)) 1 1 (2 / 5)
    (by decide) (by decide)

theorem filter_length_mono {α : Type} (p q : α → Bool)
    (h : ∀ x, p x = true → q x = true) :
    ∀ l : List α, (l.filter p).length ≤ (l.filter q).length := by
  intro l
  induction l with
  | nil => exact le_rfl
  | cons a l ih =>
    rw [List.filter_cons, List.filter_cons]
    cases hp : p a
    · cases hq : q a
      · rw [if_neg Bool.false_ne_true, if_neg Bool.false_ne_true]
        exact ih
      · rw [if_neg Bool.false_ne_true, if_pos rfl, List.length_cons]
        exact le_trans ih (Nat.le_succ _)
    · rw [if_pos rfl, h a hp, if_pos rfl, List.length_cons, List.length_cons]
      exact Nat.succ_le_succ ih

/-- C4: for a fixed algorithm and fixed score matrices, raising the threshold
can only decrease or preserve the number of accepted pairs — for the
mutual-best-match strategy and for the optimal-assignment strategy alike. -/
theorem threshold_monotone (bl sim : Nat → Nat → ℚ) (nA nB n m : Nat)
    (t1 t2 : ℚ) (h : t1 ≤ t2) :
    (acceptedIdx bl nA nB t2).length ≤ (acceptedIdx bl nA nB t1).length
    ∧ (tocRetained sim n m t2).length ≤ (tocRetained sim n m t1).length := by
  constructor
  · rw [acceptedIdx, acceptedIdx]
    apply filter_length_mono
    intro i hi
    rw [Bool.and_eq_true] at hi ⊢
    obtain ⟨h1, h2⟩ := hi
    refine ⟨h1, ?_⟩
    rw [decide_eq_true_eq] at h2 ⊢
    exact le_trans h h2
  · rw [tocRetained, tocRetained]
    apply filter_length_mono
    intro p hp
    rw [decide_eq_true_eq] at hp ⊢
    exact lt_of_le_of_lt h hp

/-- Witness for `threshold_monotone` on 1×1 matrices with thresholds 0 and 1. -/
theorem threshold_monotone_witness :
    (acceptedIdx (fun _ _ => (1 : ℚ)) 1 1 1).length
        ≤ (acceptedIdx (fun _ _ => (1 : ℚ)) 1 1 0).length
    ∧ (tocRetained (fun _ _ => (1 : ℚ)) 1 1 1).length
        ≤ (tocRetained (fun _ _ => (1 : ℚ)) 1 1 0).length :=
  threshold_monotone (fun _ _ => (1 : ℚ)) (fun _ _ => (1 : ℚ)) 1 1 1 1 0 1
    (by decide)

theorem nodup_lt_length_le (l : List Nat) (nb : Nat) (hnd : l.Nodup)
    (hlt : ∀ x ∈ l, x < nb) : l.length ≤ nb := by
  have hsub : l.toFinset ⊆ Finset.range nb := by
    intro x hx
    rw [List.mem_toFinset] at hx
    exact Finset.mem_range.mpr (hlt x hx)
  have hcard := Finset.card_le_card hsub
  rw [List.toFinset_card_of_nodup hnd] at hcard
  simpa using hcard

/-- C6: either assignment strategy accepts at most `min |A| |B|` pairs: the
matched records of `align_content` and the records of `align_tocs` never
outnumber the shorter unit sequence. -/
theorem accepted_pairs_le_min :
    (∀ (A B : List ContentItem) (sem : Nat → Nat → ℚ) (t : ℚ),
      (alignContent A B sem t).countP
          (fun r => r.english.isSome && r.german.isSome)
        ≤ min A.length B.length)
    ∧ ∀ (TA TB : List TocItem) (sim : Nat → Nat → ℚ),
      (tocAlign TA TB sim).length ≤ min TA.length TB.length := by
  constructor
  · intro A B sem t
    by_cases hA : A = []
    · subst hA
      rw [alignContent]
      simp
    by_cases hB : B = []
    · subst hB
      rw [alignContent]
      simp
    rw [alignContent_eq_sort A B sem t hA hB,
      List.Perm.countP_eq _ (sortRecs_perm (recordsPre A B sem t)),
      recordsPre, List.countP_append, List.countP_append]
    have hp : (pairRecords A B sem t).countP
        (fun r => r.english.isSome && r.german.isSome)
        = (acceptedIdx (blendedMatrix A B sem) A.length B.length t).length := by
      rw [pairRecords, List.countP_map]
      apply List.countP_eq_length.mpr
      intro a _
      simp
    have he : (unmatchedEng A B sem t).countP
        (fun r => r.english.isSome && r.german.isSome) = 0 := by
      rw [unmatchedEng, List.countP_map]
      apply List.countP_eq_zero.mpr
      intro a _
      simp
    have hg : (unmatchedGer A B sem t).countP
        (fun r => r.english.isSome && r.german.isSome) = 0 := by
      rw [unmatchedGer, List.countP_map]
      apply List.countP_eq_zero.mpr
      intro a _
      simp
    rw [hp, he, hg]
    have h1 : (acceptedIdx (blendedMatrix A B sem) A.length B.length t).length
        ≤ A.length := by
      rw [acceptedIdx]
      exact le_trans (List.length_filter_le _ _) (le_of_eq (List.length_range _))
    have h2 : (acceptedIdx (blendedMatrix A B sem) A.length B.length t).length
        ≤ B.length := by
      have hnd := usedGer_nodup (blendedMatrix A B sem) A.length B.length t
      have hlt := usedGer_lt (blendedMatrix A B sem) A.length B.length t
        (List.length_pos.mpr hB)
      have hle := nodup_lt_length_le _ B.length hnd hlt
      rw [usedGer, List.length_map] at hle
      exact hle
    omega
  · intro TA TB sim
    rw [tocAlign]
    cases hE : (TA.isEmpty || TB.isEmpty) with
    | true =>
      rw [if_pos rfl]
      exact Nat.zero_le _
    | false =>
      rw [if_neg Bool.false_ne_true, List.length_map, tocRetained]
      refine le_trans (List.length_filter_le _ _) ?_
      exact le_of_eq (optAssign_length _ _ _)

end DocAlign

